import Mathlib

/-!
Shallow embedding of the MapacheSim core (isa.py and mips.py): the bit-pattern
decode engine, the register model, the dispatch/step loop and the disassembly
formatter.  Python integers are arbitrary precision, so they are modelled by
Int (and by Nat where the source value is necessarily non-negative); Python
bytes objects are lists of Nat; Python strings are Lean strings, processed on
their underlying character lists so that everything evaluates structurally.
-/

/-- Distinct error variants, one per raise site in the source (the source uses
a single ISAError exception class; the variant records which raise fired). -/
inductive ISAErr where
  /-- bit_select: upper_bit is lower than lower_bit. -/
  | upperLtLower
  /-- sign_extend: upper bits of i not 0. -/
  | upperBitsNotZero
  /-- sign_extend with bits = 0: Python raises on the negative shift 1 << -1. -/
  | negShift
  /-- extract_pattern: format length does not equal isize*8 bits. -/
  | formatWidth
  /-- extract_pattern: docstring has no second colon-separated part
      (IndexError on split(':')[1]). -/
  | docMalformed
  /-- pattern_match: instruction buffer is not isize bytes. -/
  | instrWidth
  /-- decode: no instruction function matched. -/
  | unableToDecode
  /-- extract_asm: docstring has no third colon-separated part
      (IndexError on split(':')[2]). -/
  | asmMalformed
  /-- format_asm: assert len(fchar)==1 failed. -/
  | assertLen
  /-- format_asm: getattr on a field identifier absent from the field set
      (AttributeError). -/
  | fieldMissing
  /-- format_asm: unknown operand specifier. -/
  | unknownOperand
deriving DecidableEq, Repr

/-- Python mask(n) = (1 << n) - 1, on arbitrary-precision integers. -/
def mask (n : Nat) : Int := ((1 <<< n : Nat) : Int) - 1

/-- Arithmetic right shift on Int, the semantics of Python's >> operator. -/
def intShiftRight (x : Int) (n : Nat) : Int :=
  match x with
  | Int.ofNat m => Int.ofNat (m >>> n)
  | Int.negSucc m => Int.negSucc (m >>> n)

/-- Python bit_select(value, upper_bit, lower_bit, shift=False). -/
def bit_select (value : Int) (upper_bit lower_bit : Nat) (shift : Bool) : Except ISAErr Int :=
  if upper_bit < lower_bit then .error .upperLtLower
  else
    let smask := (mask (upper_bit + 1)).land (Int.lnot (mask lower_bit))
    let shamt := if shift then lower_bit else 0
    .ok (intShiftRight (value.land smask) shamt)

/-- Python sign_extend(i, bits).  The two branches return i unchanged or
i | ~mask(bits); a value with bits set above position bits-1 raises. -/
def sign_extend (i : Int) (bits : Nat) : Except ISAErr Int :=
  let upper_mask := Int.lnot (mask bits)
  if i.land upper_mask ≠ 0 then .error .upperBitsNotZero
  else if bits = 0 then .error .negShift
  else if i.land ((1 <<< (bits - 1) : Nat) : Int) = 0 then .ok i
  else .ok (i.lor upper_mask)

/-- Field set produced by pattern matching: Python's defaultdict(int) wrapped
into a SimpleNamespace.  A key maps to none when it was never written. -/
def Fields : Type := Char → Option Nat

/-- The empty field set (fresh defaultdict). -/
def emptyFields : Fields := fun _ => none

/-- One defaultdict update: fields[c] = (fields[c] << 1) | bit, where a
missing key reads as 0. -/
def fieldsUpdate (f : Fields) (c : Char) (bit : Nat) : Fields :=
  fun d => if d = c then some ((((f c).getD 0) <<< 1) ||| bit) else f d

/-- Observable machine state of an IsaDefinition instance: the dynamically
attached scalar registers (PC among them), the register files (Python dicts
from index to value) and the flat byte memory _mem. -/
structure MachState where
  sregs : String → Int
  fregs : String → Nat → Int
  mem : List Nat

/-- Write a scalar register. -/
def setS (s : MachState) (n : String) (v : Int) : MachState :=
  { s with sregs := fun m => if m = n then v else s.sregs m }

/-- Write one entry of a register file. -/
def setF (s : MachState) (n : String) (i : Nat) (v : Int) : MachState :=
  { s with fregs := fun m j => if m = n ∧ j = i then v else s.fregs m j }

/-- An instruction_ method: its attribute name, its docstring (which carries
the bit template and the asm template) and its semantic action.  The action
returns the state as mutated so far together with the exception it raised,
if any, mirroring Python where a raise does not roll back prior writes. -/
structure InstrFunc where
  name : String
  doc : String
  action : Fields → MachState → MachState × Option ISAErr

/-- Byte order, the self.endian attribute. -/
inductive Endian where
  | big
  | little
deriving DecidableEq

/-- An IsaDefinition instance: the instruction methods in the order they are
declared in the class body, the endianness, the instruction width in bytes
and the optional finalize_execution hook (checked via hasattr in step). -/
structure Machine where
  decls : List InstrFunc
  endian : Endian
  isize : Nat
  finOpt : Option (String → Fields → MachState → MachState)

/-- Python str.split(sep) for a single-character separator, on char lists. -/
def splitOnChar (sep : Char) : List Char → List (List Char)
  | [] => [[]]
  | c :: cs =>
    let r := splitOnChar sep cs
    if c = sep then [] :: r
    else
      match r with
      | h :: t => (c :: h) :: t
      | [] => [[c]]

/-- Lexicographic comparison of char lists by code point, Python's str <. -/
def charListLt : List Char → List Char → Bool
  | [], [] => false
  | [], _ :: _ => true
  | _ :: _, [] => false
  | a :: as, b :: bs => if a < b then true else if b < a then false else charListLt as bs

/-- Stable insertion into a name-sorted list. -/
def insertByName (f : InstrFunc) : List InstrFunc → List InstrFunc
  | [] => [f]
  | g :: gs => if charListLt f.name.data g.name.data then f :: g :: gs else g :: insertByName f gs

/-- Stable sort by attribute name: dir(self) returns attribute names sorted
alphabetically, so the _ifuncs list built in IsaDefinition.__init__ is in
name order, not class-body declaration order. -/
def sortByName : List InstrFunc → List InstrFunc
  | [] => []
  | f :: fs => insertByName f (sortByName fs)

/-- The _ifuncs catalog: getattr(self, f) for f in dir(self) if
f.startswith('instruction_'). -/
def Machine.catalog (M : Machine) : List InstrFunc :=
  sortByName (M.decls.filter (fun f => "instruction_".data.isPrefixOf f.name.data))

/-- IsaDefinition._extract_pattern: docstring.replace(' ','').split(':')[1],
length-checked against isize*8.  Returns the template as a char list. -/
def extract_pattern (M : Machine) (f : InstrFunc) : Except ISAErr (List Char) :=
  let parts := splitOnChar ':' (f.doc.data.filter (fun c => c ≠ ' '))
  match parts.get? 1 with
  | none => .error .docMalformed
  | some clean_format =>
    if clean_format.length ≠ M.isize * 8 then .error .formatWidth
    else .ok clean_format

/-- Python int.from_bytes(instr, endian). -/
def intFromBytes (endian : Endian) (bs : List Nat) : Nat :=
  match endian with
  | .big => bs.foldl (fun a b => a * 256 + b) 0
  | .little => bs.reverse.foldl (fun a b => a * 256 + b) 0

/-- The list [(I >> (s-1)) & 1 for s in range(n, 0, -1)]: the bits of I most
significant first. -/
def bitsOf (I : Nat) (n : Nat) : List Nat :=
  (List.range n).reverse.map (fun k => (I >>> k) &&& 1)

/-- The matching loop of _pattern_match: literal template characters must
equal the instruction bit, every character accumulates its bit. -/
def matchLoop : List (Char × Nat) → Fields → Option Fields
  | [], fields => some fields
  | (bpattern, bit) :: rest, fields =>
    if bpattern = '0' ∧ bit = 1 then none
    else if bpattern = '1' ∧ bit = 0 then none
    else matchLoop rest (fieldsUpdate fields bpattern bit)

/-- IsaDefinition._pattern_match: length check, pattern extraction, then the
zip of template characters with instruction bits drives the loop. -/
def pattern_match (M : Machine) (f : InstrFunc) (instr : List Nat) :
    Except ISAErr (Option Fields) :=
  if instr.length ≠ M.isize then .error .instrWidth
  else
    match extract_pattern M f with
    | .error e => .error e
    | .ok pattern =>
      let instr_as_integer := intFromBytes M.endian instr
      let instr_as_list_of_bits := bitsOf instr_as_integer (M.isize * 8)
      .ok (matchLoop (pattern.zip instr_as_list_of_bits) emptyFields)

/-- The catalog scan of IsaDefinition.decode. -/
def decodeGo (M : Machine) : List InstrFunc → List Nat → Except ISAErr (InstrFunc × Fields)
  | [], _ => .error .unableToDecode
  | ifunc :: rest, instr =>
    match pattern_match M ifunc instr with
    | .error e => .error e
    | .ok (some ifield) => .ok (ifunc, ifield)
    | .ok none => decodeGo M rest instr

/-- IsaDefinition.decode: first catalog entry whose pattern matches wins. -/
def decode (M : Machine) (instr : List Nat) : Except ISAErr (InstrFunc × Fields) :=
  decodeGo M M.catalog instr

/-- Python whitespace split (str.split() with no argument): runs of
whitespace separate tokens, empties are dropped. -/
def splitWsAux : List Char → List Char → List (List Char)
  | [], acc => if acc.isEmpty then [] else [acc.reverse]
  | c :: cs, acc =>
    if c.isWhitespace then
      if acc.isEmpty then splitWsAux cs [] else acc.reverse :: splitWsAux cs []
    else splitWsAux cs (c :: acc)

/-- Python s.split() on a char list. -/
def splitWs (cs : List Char) : List (List Char) := splitWsAux cs []

/-- Python str.join(' ', parts). -/
def joinSpace : List String → String
  | [] => ""
  | [s] => s
  | s :: rest => s ++ " " ++ joinSpace rest

/-- IsaDefinition._extract_asm: docstring.split(':')[2], commas replaced by
spaces, stripped and re-joined with single spaces. -/
def extract_asm (f : InstrFunc) : Except ISAErr String :=
  match (splitOnChar ':' f.doc.data).get? 2 with
  | none => .error .asmMalformed
  | some asm_pattern =>
    let clean_pattern := asm_pattern.map (fun c => if c = ',' then ' ' else c)
    .ok (joinSpace ((splitWs clean_pattern).map String.mk))

/-- Helper operand_field of _format_asm: part[1:] must be a single character
naming a field of the namespace. -/
def operand_field (ifield : Fields) (part : List Char) : Except ISAErr Nat :=
  match part.drop 1 with
  | [fchar] =>
    match ifield fchar with
    | some v => .ok v
    | none => .error .fieldMissing
  | _ => .error .assertLen

/-- Python hex(n) for a non-negative n: 0x prefix, lowercase digits. -/
def pyHex (n : Nat) : String := "0x" ++ String.mk (Nat.toDigits 16 n)

/-- One operand token of _format_asm: the part.startswith tests on the
leading sigil, in source order. -/
def format_token (ifield : Fields) (part : List Char) : Except ISAErr String :=
  match part with
  | [] => .error .unknownOperand
  | p :: _ =>
    if p = '$' then
      match operand_field ifield part with
      | .ok rnum => .ok ("$" ++ toString rnum)
      | .error e => .error e
    else if p = '@' then
      match operand_field ifield part with
      | .ok addr => .ok (pyHex (addr <<< 2))
      | .error e => .error e
    else if p = '!' then
      match operand_field ifield part with
      | .ok immed => .ok (pyHex immed)
      | .error e => .error e
    else .error .unknownOperand

/-- The operand loop of _format_asm: tokens render left to right and the
first failure propagates, as the Python for loop raises at the first bad
token. -/
def formatTokens (ifield : Fields) : List (List Char) → Except ISAErr (List String)
  | [] => .ok []
  | part :: parts =>
    match format_token ifield part with
    | .error e => .error e
    | .ok r =>
      match formatTokens ifield parts with
      | .error e => .error e
      | .ok rs => .ok (r :: rs)

/-- IsaDefinition._format_asm: the first token is the instruction name, the
rest are operands. -/
def format_asm (ifield : Fields) (asm_pattern : String) : Except ISAErr String :=
  match splitWs asm_pattern.data with
  | [] => .ok ""
  | nameTok :: parts =>
    match formatTokens ifield parts with
    | .error e => .error e
    | .ok rendered => .ok (joinSpace (String.mk nameTok :: rendered))

/-- IsaDefinition.istring. -/
def istring (f : InstrFunc) (ifield : Fields) : Except ISAErr String :=
  match extract_asm f with
  | .error e => .error e
  | .ok asm_pattern => format_asm ifield asm_pattern

/-- IsaDefinition.mem_read: the Python slice self._mem[start:start+size]. -/
def mem_read (s : MachState) (start size : Nat) : List Nat :=
  (s.mem.drop start).take size

/-- IsaDefinition.fetch: isize bytes at PC (PC is non-negative in every
reachable state of the modelled machines). -/
def fetch (M : Machine) (s : MachState) : List Nat :=
  mem_read s (s.sregs "PC").toNat M.isize

/-- IsaDefinition.step: fetch, decode, execute, optional finalize_execution,
istring.  A raise propagates and leaves every mutation already performed in
place, so the function returns the state reached together with the result. -/
def step (M : Machine) (s : MachState) : MachState × Except ISAErr String :=
  let instr_mem := fetch M s
  match decode M instr_mem with
  | .error e => (s, .error e)
  | .ok (ifunc, ifield) =>
    match ifunc.action ifield s with
    | (s1, some e) => (s1, .error e)
    | (s1, none) =>
      let s2 :=
        match M.finOpt with
        | some fin => fin ifunc.name ifield s1
        | none => s1
      match istring ifunc ifield with
      | .error e => (s2, .error e)
      | .ok str => (s2, .ok str)

/-- Register declarations as made by make_register / make_register_file calls
in an ISA constructor (rnames is the optional display-name override). -/
inductive RegDecl where
  | reg (name : String) (bits : Nat)
  | file (name : String) (size : Nat) (bits : Nat) (rnames : Option (Nat → String))

/-- One _reg_list entry: ('reg',name,bits,None,None) or
('file',name,bits,size,rnames). -/
inductive RegEntry where
  | reg (name : String) (bits : Nat)
  | file (name : String) (bits : Nat) (size : Nat) (rnames : Nat → String)

/-- The default rnames dict of make_register_file. -/
def default_rnames (name : String) : Nat → String :=
  fun x => "$" ++ name ++ toString x

/-- The _reg_list built by running the declarations in order. -/
def make_reg_list : List RegDecl → List RegEntry
  | [] => []
  | RegDecl.reg n bits :: ds => RegEntry.reg n bits :: make_reg_list ds
  | RegDecl.file n size bits rn :: ds =>
    RegEntry.file n bits size
      (match rn with
       | none => default_rnames n
       | some f => f) :: make_reg_list ds

/-- IsaDefinition.registers: one (name, bits, value) triple per register,
register files expanded index by index. -/
def registers (es : List RegEntry) (s : MachState) : List (String × Nat × Int) :=
  match es with
  | [] => []
  | RegEntry.reg n bits :: rest => (n, bits, s.sregs n) :: registers rest s
  | RegEntry.file n bits size rnames :: rest =>
    ((List.range size).map (fun i => (rnames i, bits, s.fregs n i))) ++ registers rest s

/-- Modelled from the spec (section 4.2, enumerate_registers): a sequence of
(display_name, bit_width, current_value) triples in declaration order,
scalars as declared, then each file's entries index 0..size-1, with the
display name the supplied override or else the dollar-name-index default.
This is the spec-side comparator for the refinement claim about
enumerate_registers; the code-side definition is registers above. -/
def enumerate_registers_spec (ds : List RegDecl) (s : MachState) : List (String × Nat × Int) :=
  match ds with
  | [] => []
  | RegDecl.reg n bits :: rest => (n, bits, s.sregs n) :: enumerate_registers_spec rest s
  | RegDecl.file n size bits rn :: rest =>
    ((List.range size).map (fun i =>
      ((match rn with
        | some f => f i
        | none => "$" ++ n ++ toString i), bits, s.fregs n i))) ++ enumerate_registers_spec rest s

/-- The Mips jump set: self.jumps = set([self.instruction_j]). -/
def mipsJumps : List String := ["instruction_j"]

/-- Mips.instruction_j: PC gets the upper four bits of PC+4 plus the word
address field shifted into place. -/
def mipsJF : InstrFunc where
  name := "instruction_j"
  doc := "jump: 000010 aaaaaaaaaaaaaaaaaaaaaaaaaa : j @a"
  action := fun ifield s =>
    match bit_select (s.sregs "PC" + 4) 31 28 false with
    | .error e => (s, some e)
    | .ok upper_bits =>
      match ifield 'a' with
      | none => (s, some .fieldMissing)
      | some a => (setS s "PC" (upper_bits + ((a <<< 2 : Nat) : Int)), none)

/-- Mips.instruction_add: R[d] = R[s] + R[t]. -/
def mipsAddF : InstrFunc where
  name := "instruction_add"
  doc := "add : 000000 sssss ttttt ddddd xxxxx 100000: addi $d $s $t"
  action := fun ifield st =>
    match ifield 'd', ifield 's', ifield 't' with
    | some d, some s, some t => (setF st "R" d (st.fregs "R" s + st.fregs "R" t), none)
    | _, _, _ => (st, some .fieldMissing)

/-- Mips.instruction_addi: R[t] = R[s] + sign_extend(i, 16). -/
def mipsAddiF : InstrFunc where
  name := "instruction_addi"
  doc := "add immediate : 001000 sssss ttttt iiiiiiiiiiiiiiii : addi $t $s !i"
  action := fun ifield st =>
    match ifield 't', ifield 's', ifield 'i' with
    | some t, some s, some i =>
      match sign_extend (i : Int) 16 with
      | .error e => (st, some e)
      | .ok v => (setF st "R" t (st.fregs "R" s + v), none)
    | _, _, _ => (st, some .fieldMissing)

/-- Mips.instruction_nop. -/
def mipsNopF : InstrFunc where
  name := "instruction_nop"
  doc := "nop : 000000 00000 00000 00000 00000 000000 : nop"
  action := fun _ s => (s, none)

/-- Mips.finalize_execution: R[0] is forced back to zero and PC advances by 4
unless the executed instruction is in the jump set. -/
def mipsFinalize (fname : String) (_ : Fields) (s : MachState) : MachState :=
  let s1 := setF s "R" 0 0
  if fname ∈ mipsJumps then s1 else setS s1 "PC" (s1.sregs "PC" + 4)

/-- The Mips machine: instruction methods in class-body declaration order
(j, add, addi, nop), big endian, 4-byte instructions, with the finalize
hook present. -/
def mipsM : Machine where
  decls := [mipsJF, mipsAddF, mipsAddiF, mipsNopF]
  endian := .big
  isize := 4
  finOpt := some mipsFinalize

/-- A machine state with all registers zero and the given memory. -/
def zeroState (m : List Nat) : MachState where
  sregs := fun _ => 0
  fregs := fun _ _ => 0
  mem := m

/-- The field set produced by matching the addi pattern against the bytes
21 08 00 04 (hex); used by the scenario clauses below. -/
def scenarioF : Fields :=
  match pattern_match mipsM mipsAddiF [0x21, 0x08, 0x00, 0x04] with
  | .ok (some f) => f
  | _ => emptyFields

/-- Projection of a pattern_match result onto a list of field identifiers,
so that concrete field sets can be stated without function equality. -/
def fieldsProj (r : Except ISAErr (Option Fields)) (cs : List Char) :
    Option (List (Option Nat)) :=
  match r with
  | .ok (some f) => some (cs.map f)
  | _ => none

/-- Machine whose two instructions are declared in the class body in
reverse-alphabetical order; both templates are all field characters, so
every one-byte input matches both. -/
def ceZzF : InstrFunc where
  name := "instruction_zz"
  doc := "zz : dddddddd : zz"
  action := fun _ s => (s, none)

/-- Companion instruction declared second but alphabetically first. -/
def ceAaF : InstrFunc where
  name := "instruction_aa"
  doc := "aa : eeeeeeee : aa"
  action := fun _ s => (s, none)

/-- One-byte-instruction machine declaring zz before aa. -/
def orderM : Machine where
  decls := [ceZzF, ceAaF]
  endian := .big
  isize := 1
  finOpt := none

/-- The field set decode produces on the one-byte input 0 for orderM. -/
def orderFields : Fields :=
  match decode orderM [0] with
  | .ok (_, f) => f
  | _ => emptyFields

/-- Instruction with a 31-character bit template on a 4-byte machine. -/
def badTemplateF : InstrFunc where
  name := "instruction_w"
  doc := "w : 0000000000000000000000000000000 : w"
  action := fun _ s => (s, none)

/-- Machine whose only instruction has a bit template one character short of
the 32-bit instruction width. -/
def badTemplateM : Machine where
  decls := [badTemplateF]
  endian := .big
  isize := 4
  finOpt := none

/-- Instruction whose action writes a register and whose asm template uses an
unrecognized operand sigil, so disassembly fails after execution. -/
def badSigilF : InstrFunc where
  name := "instruction_bad"
  doc := "bad : dddddddd : bad %d"
  action := fun _ s => (setS s "X" 1, none)

/-- One-byte-instruction machine around badSigilF. -/
def badSigilM : Machine where
  decls := [badSigilF]
  endian := .big
  isize := 1
  finOpt := none

/-- A machine with no instruction_ methods at all, as the IsaDefinition base
class itself: its catalog is empty. -/
def emptyM : Machine where
  decls := []
  endian := .big
  isize := 4
  finOpt := none

/-! Helper lemmas about the matching loop and the field accumulators. -/

theorem shl_or_eq (x y : Nat) (hy : y < 2) : (x <<< 1) ||| y = x * 2 + y := by
  rw [Nat.shiftLeft_eq, Nat.pow_one]
  interval_cases y
  · simp
  · apply Nat.eq_of_testBit_eq
    intro i
    cases i with
    | zero =>
      rw [Nat.testBit_or]
      simp only [Nat.testBit_zero]
      have h1 : x * 2 % 2 = 0 := by omega
      have h2 : (x * 2 + 1) % 2 = 1 := by omega
      simp [h1, h2]
    | succ j =>
      rw [Nat.testBit_or, Nat.testBit_succ, Nat.testBit_succ, Nat.testBit_succ]
      have h1 : x * 2 / 2 = x := by omega
      have h2 : (x * 2 + 1) / 2 = x := by omega
      have h3 : 1 / 2 = 0 := by omega
      simp [h1, h2, h3]

theorem foldl_shl_or_eq_mul (bs : List Nat) (a : Nat) (h : ∀ b ∈ bs, b < 2) :
    bs.foldl (fun x y => (x <<< 1) ||| y) a = bs.foldl (fun x y => x * 2 + y) a := by
  induction bs generalizing a with
  | nil => rfl
  | cons b rest ih =>
    simp only [List.foldl_cons]
    rw [shl_or_eq a b (h b (by simp))]
    exact ih _ (fun x hx => h x (by simp [hx]))

theorem foldl_mul_bound (bs : List Nat) (a : Nat) (h : ∀ b ∈ bs, b < 2) :
    bs.foldl (fun x y => x * 2 + y) a < (a + 1) * 2 ^ bs.length := by
  induction bs generalizing a with
  | nil => simp
  | cons b rest ih =>
    simp only [List.foldl_cons, List.length_cons]
    have hb : b < 2 := h b (by simp)
    have := ih (a * 2 + b) (fun x hx => h x (by simp [hx]))
    have hle : (a * 2 + b + 1) * 2 ^ rest.length ≤ (a + 1) * 2 ^ (rest.length + 1) := by
      have : a * 2 + b + 1 ≤ (a + 1) * 2 := by omega
      calc (a * 2 + b + 1) * 2 ^ rest.length ≤ (a + 1) * 2 * 2 ^ rest.length :=
            Nat.mul_le_mul_right _ this
        _ = (a + 1) * 2 ^ (rest.length + 1) := by ring
    omega

theorem foldl_all_zero (bs : List Nat) (h : ∀ b ∈ bs, b = 0) :
    bs.foldl (fun x y => x * 2 + y) 0 = 0 := by
  induction bs with
  | nil => rfl
  | cons b rest ih =>
    simp only [List.foldl_cons]
    rw [h b (by simp)]
    exact ih (fun x hx => h x (by simp [hx]))

theorem foldl_all_one (bs : List Nat) (a : Nat) (h : ∀ b ∈ bs, b = 1) :
    bs.foldl (fun x y => x * 2 + y) a = (a + 1) * 2 ^ bs.length - 1 := by
  induction bs generalizing a with
  | nil => simp
  | cons b rest ih =>
    simp only [List.foldl_cons, List.length_cons]
    rw [h b (by simp), ih (a * 2 + 1) (fun x hx => h x (by simp [hx]))]
    have h2 : 0 < 2 ^ rest.length := Nat.pos_pow_of_pos _ (by omega)
    have : (a + 1) * 2 ^ (rest.length + 1) = (a * 2 + 1 + 1) * 2 ^ rest.length := by ring
    omega

theorem fieldsUpdate_self (f : Fields) (c : Char) (b : Nat) :
    fieldsUpdate f c b c = some ((((f c).getD 0) <<< 1) ||| b) := by
  simp [fieldsUpdate]

theorem fieldsUpdate_other (f : Fields) (c d : Char) (b : Nat) (h : d ≠ c) :
    fieldsUpdate f c b d = f d := by
  simp [fieldsUpdate, h]

theorem matchLoop_char (l : List (Char × Nat)) (f0 f1 : Fields)
    (h : matchLoop l f0 = some f1) (c : Char) :
    f1 c =
      if f0 c = none ∧ l.filter (fun cb => cb.1 = c) = [] then none
      else some (((l.filter (fun cb => cb.1 = c)).map Prod.snd).foldl
        (fun x y => (x <<< 1) ||| y) ((f0 c).getD 0)) := by
  induction l generalizing f0 with
  | nil =>
    simp only [matchLoop, Option.some.injEq] at h
    subst h
    cases hf : f0 c with
    | none => simp [hf]
    | some w => simp [hf]
  | cons cb rest ih =>
    obtain ⟨c', b⟩ := cb
    simp only [matchLoop] at h
    split at h
    · exact absurd h (by simp)
    · split at h
      · exact absurd h (by simp)
      · have step := ih (fieldsUpdate f0 c' b) h
        by_cases hc : c' = c
        · subst hc
          rw [fieldsUpdate_self] at step
          simp only [List.filter_cons, decide_eq_true_eq, if_pos rfl, reduceCtorEq,
            false_and, if_false, List.map_cons, List.foldl_cons] at step ⊢
          rw [step]
          simp
        · have hne : ¬ ((c', b).1 = c) := hc
          rw [fieldsUpdate_other f0 c' c b (fun hc2 => hc (hc2.symm))] at step
          simpa only [List.filter_cons, decide_eq_true_eq, if_neg hne] using step

theorem matchLoop_guard (l : List (Char × Nat)) (f0 f1 : Fields)
    (h : matchLoop l f0 = some f1) :
    ∀ cb ∈ l, ¬(cb.1 = '0' ∧ cb.2 = 1) ∧ ¬(cb.1 = '1' ∧ cb.2 = 0) := by
  induction l generalizing f0 with
  | nil => simp
  | cons hd rest ih =>
    obtain ⟨c', b⟩ := hd
    simp only [matchLoop] at h
    split at h
    · exact absurd h (by simp)
    · split at h
      · exact absurd h (by simp)
      · intro cb hcb
        rcases List.mem_cons.mp hcb with hcb | hcb
        · subst hcb
          constructor <;> assumption
        · exact ih _ h cb hcb

theorem bitsOf_length (I n : Nat) : (bitsOf I n).length = n := by
  simp [bitsOf]

theorem bitsOf_mem_lt (I n : Nat) : ∀ b ∈ bitsOf I n, b < 2 := by
  intro b hb
  simp only [bitsOf, List.mem_map] at hb
  obtain ⟨k, _, hk⟩ := hb
  rw [← hk, Nat.and_one_is_mod]
  omega

theorem filter_zip_length (c : Char) (ps : List Char) (bs : List Nat)
    (h : ps.length = bs.length) :
    ((ps.zip bs).filter (fun cb => cb.1 = c)).length = ps.count c := by
  induction ps generalizing bs with
  | nil => simp
  | cons p rest ih =>
    cases bs with
    | nil => simp at h
    | cons b bs =>
      simp only [List.length_cons, Nat.succ.injEq] at h
      simp only [List.zip_cons_cons, List.filter_cons, List.count_cons]
      by_cases hp : p = c
      · subst hp
        simp [ih bs h]
      · simp only [decide_eq_true_eq]
        rw [if_neg hp]
        simp [ih bs h, hp]

theorem filter_zip_mem_bits (c : Char) (ps : List Char) (bs : List Nat) :
    ∀ b ∈ ((ps.zip bs).filter (fun cb => cb.1 = c)).map Prod.snd, b ∈ bs := by
  intro b hb
  simp only [List.mem_map] at hb
  obtain ⟨cb, hcb, hsnd⟩ := hb
  have := List.of_mem_filter hcb
  have hmem := List.mem_of_mem_filter hcb
  have := (List.of_mem_zip hmem).2
  rw [← hsnd]
  exact this

theorem filter_zip_nonempty (c : Char) (ps : List Char) (bs : List Nat)
    (h : ps.length = bs.length) (hc : c ∈ ps) :
    (ps.zip bs).filter (fun cb => cb.1 = c) ≠ [] := by
  intro hnil
  have : ((ps.zip bs).filter (fun cb => cb.1 = c)).length = 0 := by rw [hnil]; rfl
  rw [filter_zip_length c ps bs h] at this
  have hpos : 0 < ps.count c := List.count_pos_iff.mpr hc
  omega

theorem extract_pattern_ok_length (M : Machine) (f : InstrFunc) (pat : List Char)
    (h : extract_pattern M f = .ok pat) : pat.length = M.isize * 8 := by
  simp only [extract_pattern] at h
  split at h
  · exact absurd h (by simp)
  · split at h
    · exact absurd h (by simp)
    · simp only [Except.ok.injEq] at h
      subst h
      omega

theorem pattern_match_ok_some (M : Machine) (f : InstrFunc) (instr : List Nat) (flds : Fields)
    (h : pattern_match M f instr = .ok (some flds)) :
    instr.length = M.isize ∧
      ∃ pat, extract_pattern M f = .ok pat ∧
        matchLoop (pat.zip (bitsOf (intFromBytes M.endian instr) (M.isize * 8)))
          emptyFields = some flds := by
  simp only [pattern_match] at h
  split at h
  · exact absurd h (by simp)
  · rename_i hlen
    constructor
    · omega
    · split at h
      · exact absurd h (by simp)
      · rename_i pat hpat
        exact ⟨pat, hpat, by simpa using h⟩

theorem decodeGo_ok_pattern (M : Machine) (L : List InstrFunc) (instr : List Nat)
    (f : InstrFunc) (flds : Fields) (h : decodeGo M L instr = .ok (f, flds)) :
    pattern_match M f instr = .ok (some flds) := by
  induction L with
  | nil => exact absurd h (by simp [decodeGo])
  | cons g rest ih =>
    simp only [decodeGo] at h
    split at h
    · exact absurd h (by simp)
    · rename_i o flds2 ho
      simp only [Except.ok.injEq, Prod.mk.injEq] at h
      obtain ⟨h1, h2⟩ := h
      subst h1
      subst h2
      exact ho
    · exact ih h

theorem decodeGo_first (M : Machine) (instr : List Nat) (L : List InstrFunc)
    (i : Nat) (f : InstrFunc) (flds : Fields)
    (hget : L.get? i = some f)
    (hmatch : pattern_match M f instr = .ok (some flds))
    (hprev : ∀ k g, k < i → L.get? k = some g → pattern_match M g instr = .ok none) :
    decodeGo M L instr = .ok (f, flds) := by
  induction L generalizing i with
  | nil => simp at hget
  | cons g rest ih =>
    cases i with
    | zero =>
      simp only [List.get?_cons_zero, Option.some.injEq] at hget
      subst hget
      simp only [decodeGo]
      rw [hmatch]
    | succ j =>
      simp only [List.get?_cons_succ] at hget
      have hg : pattern_match M g instr = .ok none :=
        hprev 0 g (Nat.succ_pos j) rfl
      simp only [decodeGo]
      rw [hg]
      exact ih j hget (fun k g2 hk hget2 => hprev (k + 1) g2 (by omega) (by simpa using hget2))

theorem pattern_match_field (M : Machine) (f : InstrFunc) (instr : List Nat) (flds : Fields)
    (pat : List Char) (c : Char)
    (h : pattern_match M f instr = .ok (some flds))
    (hp : extract_pattern M f = .ok pat) (hc : c ∈ pat) :
    flds c = some
      ((((pat.zip (bitsOf (intFromBytes M.endian instr) (M.isize * 8))).filter
          (fun cb => cb.1 = c)).map Prod.snd).foldl (fun x y => x * 2 + y) 0) := by
  obtain ⟨hlen, pat2, hp2, hloop⟩ := pattern_match_ok_some M f instr flds h
  rw [hp] at hp2
  injection hp2 with hp2
  subst hp2
  have hplen : pat.length = (bitsOf (intFromBytes M.endian instr) (M.isize * 8)).length := by
    rw [bitsOf_length]
    exact extract_pattern_ok_length M f pat hp
  have hmain := matchLoop_char _ emptyFields flds hloop c
  rw [if_neg] at hmain
  · rw [hmain]
    have hbits : ∀ b ∈ ((pat.zip (bitsOf (intFromBytes M.endian instr) (M.isize * 8))).filter
        (fun cb => cb.1 = c)).map Prod.snd, b < 2 := by
      intro b hb
      exact bitsOf_mem_lt _ _ b (filter_zip_mem_bits c _ _ b hb)
    rw [foldl_shl_or_eq_mul _ _ hbits]
    rfl
  · intro ⟨_, hnil⟩
    exact filter_zip_nonempty c _ _ hplen hc hnil

theorem pattern_match_field_lt (M : Machine) (f : InstrFunc) (instr : List Nat) (flds : Fields)
    (pat : List Char) (c : Char)
    (h : pattern_match M f instr = .ok (some flds))
    (hp : extract_pattern M f = .ok pat) (hc : c ∈ pat) :
    ∃ v, flds c = some v ∧ v < 2 ^ pat.count c := by
  refine ⟨_, pattern_match_field M f instr flds pat c h hp hc, ?_⟩
  have hplen : pat.length = (bitsOf (intFromBytes M.endian instr) (M.isize * 8)).length := by
    rw [bitsOf_length]
    exact extract_pattern_ok_length M f pat hp
  have hbits : ∀ b ∈ ((pat.zip (bitsOf (intFromBytes M.endian instr) (M.isize * 8))).filter
      (fun cb => cb.1 = c)).map Prod.snd, b < 2 := by
    intro b hb
    exact bitsOf_mem_lt _ _ b (filter_zip_mem_bits c _ _ b hb)
  have hbound := foldl_mul_bound _ 0 hbits
  have hcount : ((pat.zip (bitsOf (intFromBytes M.endian instr) (M.isize * 8))).filter
      (fun cb => cb.1 = c)).length = pat.count c :=
    filter_zip_length c _ _ hplen
  simpa [List.length_map, hcount] using hbound

/-! Helper lemmas about Python integer bitwise operations. -/

theorem mask_eq_ofNat (bits : Nat) : mask bits = ((2 ^ bits - 1 : Nat) : Int) := by
  have h1 : (1 : Nat) <<< bits = 2 ^ bits := by
    rw [Nat.shiftLeft_eq, Nat.one_mul]
  have h2 : 1 ≤ 2 ^ bits := Nat.one_le_two_pow
  unfold mask
  rw [h1]
  omega

theorem lnot_mask (bits : Nat) : Int.lnot (mask bits) = Int.negSucc (2 ^ bits - 1) := by
  rw [mask_eq_ofNat]
  rfl

theorem ldiff_self_mask_eq_zero (n bits : Nat) (h : n < 2 ^ bits) :
    Nat.ldiff n (2 ^ bits - 1) = 0 := by
  apply Nat.eq_of_testBit_eq
  intro p
  rw [Nat.testBit_ldiff, Nat.zero_testBit, Nat.testBit_two_pow_sub_one]
  by_cases hp : p < bits
  · simp [hp]
  · have : n < 2 ^ p := Nat.lt_of_lt_of_le h (Nat.pow_le_pow_right (by omega) (by omega))
    simp [Nat.testBit_lt_two_pow this]

theorem ldiff_self_mask_ne_zero (n bits : Nat) (h : 2 ^ bits ≤ n) :
    Nat.ldiff n (2 ^ bits - 1) ≠ 0 := by
  intro h0
  have hlt : n < 2 ^ bits := by
    apply Nat.lt_pow_two_of_testBit
    intro p hp
    have := congrArg (fun m => m.testBit p) h0
    simp only [Nat.testBit_ldiff, Nat.zero_testBit, Nat.testBit_two_pow_sub_one] at this
    have hnb : ¬ p < bits := by omega
    simpa [hnb] using this
  omega

theorem ldiff_mask_eq_xor (n bits : Nat) (h : n < 2 ^ bits) :
    Nat.ldiff (2 ^ bits - 1) n = (2 ^ bits - 1) ^^^ n := by
  apply Nat.eq_of_testBit_eq
  intro p
  rw [Nat.testBit_ldiff, Nat.testBit_xor, Nat.testBit_two_pow_sub_one]
  cases hn : n.testBit p with
  | false => simp
  | true =>
    have hge : 2 ^ p ≤ n := Nat.testBit_implies_ge hn
    have hp : p < bits := by
      by_contra hc
      have : 2 ^ bits ≤ 2 ^ p := Nat.pow_le_pow_right (by omega) (by omega)
      omega
    simp [hp]

theorem xor_mask_eq_sub (bits : Nat) :
    ∀ n, n < 2 ^ bits → (2 ^ bits - 1) ^^^ n = 2 ^ bits - 1 - n := by
  induction bits with
  | zero =>
    intro n hn
    interval_cases n
    rfl
  | succ b ih =>
    intro n hn
    have hpow : 2 ^ (b + 1) = 2 * 2 ^ b := by rw [Nat.pow_succ]; ring
    have h1 : 1 ≤ 2 ^ b := Nat.one_le_two_pow
    have hbit : 2 ^ (b + 1) - 1 = Nat.bit true (2 ^ b - 1) := by
      rw [Nat.bit_val, Bool.toNat_true]
      omega
    have hdecomp : Nat.bit n.bodd n.div2 = n := Nat.bit_decomp n
    have hdiv : n.div2 = n / 2 := Nat.div2_val n
    have hq : n.div2 < 2 ^ b := by
      rw [hdiv]
      omega
    calc (2 ^ (b + 1) - 1) ^^^ n
        = Nat.bit true (2 ^ b - 1) ^^^ Nat.bit n.bodd n.div2 := by rw [hbit, hdecomp]
      _ = Nat.bit (bne true n.bodd) ((2 ^ b - 1) ^^^ n.div2) := Nat.xor_bit true _ n.bodd _
      _ = Nat.bit (bne true n.bodd) (2 ^ b - 1 - n.div2) := by rw [ih n.div2 hq]
      _ = 2 ^ (b + 1) - 1 - n := by
          have hsum := Nat.bodd_add_div2 n
          cases hb : n.bodd
          · rw [hb] at hsum
            rw [show bne true false = true from rfl, Nat.bit_val, Bool.toNat_true]
            simp only [Bool.toNat_false] at hsum
            omega
          · rw [hb] at hsum
            rw [show bne true true = false from rfl, Nat.bit_val, Bool.toNat_false]
            simp only [Bool.toNat_true] at hsum
            omega

theorem land_ofNat_negSucc (m n : Nat) :
    Int.land (Int.ofNat m) (Int.negSucc n) = Int.ofNat (Nat.ldiff m n) := rfl

theorem lor_ofNat_negSucc (m n : Nat) :
    Int.lor (Int.ofNat m) (Int.negSucc n) = Int.negSucc (Nat.ldiff n m) := rfl

theorem land_ofNat_ofNat (m n : Nat) :
    Int.land (Int.ofNat m) (Int.ofNat n) = Int.ofNat (m &&& n) := rfl

theorem land_cast_negSucc (m n : Nat) :
    Int.land ((m : Nat) : Int) (Int.negSucc n) = ((Nat.ldiff m n : Nat) : Int) := rfl

theorem lor_cast_negSucc (m n : Nat) :
    Int.lor ((m : Nat) : Int) (Int.negSucc n) = Int.negSucc (Nat.ldiff n m) := rfl

theorem land_cast_cast (m n : Nat) :
    Int.land ((m : Nat) : Int) ((n : Nat) : Int) = ((m &&& n : Nat) : Int) := rfl

theorem sign_extend_cases (bits : Nat) (hb : 1 ≤ bits) (n : Nat) :
    (n < 2 ^ bits →
      sign_extend (n : Int) bits =
        .ok (if n.testBit (bits - 1) then (n : Int) - ((2 ^ bits : Nat) : Int) else (n : Int)))
    ∧ (2 ^ bits ≤ n → sign_extend (n : Int) bits = .error .upperBitsNotZero) := by
  have hsh : (1 : Nat) <<< (bits - 1) = 2 ^ (bits - 1) := by
    rw [Nat.shiftLeft_eq, Nat.one_mul]
  constructor
  · intro hlt
    have hz : Int.land (n : Int) (Int.lnot (mask bits)) = 0 := by
      rw [lnot_mask, land_cast_negSucc, ldiff_self_mask_eq_zero n bits hlt]
      rfl
    have hb0 : ¬ (bits = 0) := by omega
    simp only [sign_extend, hz, ne_eq, not_true_eq_false, if_false, hb0,
      not_false_eq_true, hsh, land_cast_cast, Nat.and_two_pow]
    cases htb : n.testBit (bits - 1) with
    | false =>
      simp
    | true =>
      have hpos : 0 < 2 ^ (bits - 1) := Nat.pos_pow_of_pos _ (by omega)
      have hne : ¬ (((Bool.toNat true * 2 ^ (bits - 1) : Nat) : Int) = 0) := by
        simp only [Bool.toNat_true, Nat.one_mul]
        omega
      rw [if_neg hne, lnot_mask, lor_cast_negSucc,
        ldiff_mask_eq_xor n bits hlt, xor_mask_eq_sub bits n hlt]
      have h1 : 1 ≤ 2 ^ bits := Nat.one_le_two_pow
      have : Int.negSucc (2 ^ bits - 1 - n) = (n : Int) - ((2 ^ bits : Nat) : Int) := by
        rw [Int.negSucc_eq]
        omega
      rw [this]
      simp
  · intro hge
    have hnz : Int.land (n : Int) (Int.lnot (mask bits)) ≠ 0 := by
      rw [lnot_mask, land_cast_negSucc]
      have := ldiff_self_mask_ne_zero n bits hge
      omega
    simp only [sign_extend, hnz, ne_eq, not_false_eq_true, if_true]

/-! Claim theorems. -/

/-- Claim C7: for every bits at least 1 and every i below 2^bits, sign_extend
returns i when bit bits-1 of i is clear and i - 2^bits otherwise; any i with a
bit at position at least bits set makes sign_extend fail with the
out-of-range error. -/
theorem sign_extend_spec (bits : Nat) (hb : 1 ≤ bits) (i : Nat) :
    (i < 2 ^ bits →
      sign_extend (i : Int) bits =
        .ok (if i.testBit (bits - 1) then (i : Int) - ((2 ^ bits : Nat) : Int) else (i : Int)))
    ∧ ((∃ p, bits ≤ p ∧ i.testBit p) → sign_extend (i : Int) bits = .error .upperBitsNotZero) := by
  refine ⟨(sign_extend_cases bits hb i).1, ?_⟩
  intro ⟨p, hp, htb⟩
  apply (sign_extend_cases bits hb i).2
  exact le_trans (Nat.pow_le_pow_right (by omega) hp) (Nat.testBit_implies_ge htb)

/-- Claim C7, witness: sign extension of 8, 3 and 16 at width 4. -/
theorem sign_extend_spec_witness :
    sign_extend ((8 : Nat) : Int) 4 = .ok (-8)
    ∧ sign_extend ((3 : Nat) : Int) 4 = .ok 3
    ∧ sign_extend ((16 : Nat) : Int) 4 = .error .upperBitsNotZero := by
  refine ⟨?_, ?_, ?_⟩
  · have h := (sign_extend_spec 4 (by omega) 8).1 (by omega)
    rw [show (8 : Nat).testBit 3 = true from rfl] at h
    simpa using h
  · have h := (sign_extend_spec 4 (by omega) 3).1 (by omega)
    rw [show (3 : Nat).testBit 3 = false from rfl] at h
    simpa using h
  · exact (sign_extend_spec 4 (by omega) 16).2 ⟨4, by omega, rfl⟩

/-- Claim C1, counterexample: in orderM the method instruction_zz is declared
before instruction_aa and its literal bits match the input byte 0, yet decode
returns instruction_aa, because the catalog is ordered by dir(), which sorts
attribute names alphabetically. -/
theorem decode_declaration_order_counterexample :
    orderM.decls.map (fun g => g.name) = ["instruction_zz", "instruction_aa"]
    ∧ (pattern_match orderM ceZzF [0]).toOption.map Option.isSome = some true
    ∧ (decode orderM [0]).toOption.map (fun p => p.1.name) = some "instruction_aa"
    ∧ "instruction_aa" ≠ "instruction_zz" := ⟨rfl, rfl, rfl, by decide⟩

/-- Claim C1 (amended): the catalog is the instruction_ methods sorted
alphabetically by method name (the order dir() yields), and decode returns
the first entry of that catalog order whose literal bits match; declaration
order decides priority only insofar as it coincides with name order. -/
theorem decode_priority_name_order :
    (∀ M : Machine,
      M.catalog = sortByName (M.decls.filter (fun g => "instruction_".data.isPrefixOf g.name.data)))
    ∧ ∀ (M : Machine) (instr : List Nat) (i : Nat) (f : InstrFunc) (flds : Fields),
        M.catalog.get? i = some f →
        pattern_match M f instr = .ok (some flds) →
        (∀ k g, k < i → M.catalog.get? k = some g → pattern_match M g instr = .ok none) →
        decode M instr = .ok (f, flds) := by
  refine ⟨fun M => rfl, ?_⟩
  intro M instr i f flds hget hmatch hprev
  exact decodeGo_first M instr M.catalog i f flds hget hmatch hprev

/-- Claim C1, witness: the amended priority rule applied to orderM at catalog
position 0. -/
theorem decode_priority_name_order_witness :
    decode orderM [0] = .ok (ceAaF, orderFields) :=
  decode_priority_name_order.2 orderM [0] 0 ceAaF orderFields rfl rfl
    (fun k _ hk _ => absurd hk (Nat.not_lt_zero k))

/-- Claim C2: on a successful pattern match the value of each field
identifier is the left-to-right fold of the instruction bits at the
template positions carrying that identifier (most significant first, each
new bit entering as the least significant), regardless of contiguity; and
the bytes 21 08 00 04 (hex) matched big-endian against the template
001000 sssss ttttt iiiiiiiiiiiiiiii give s=8, t=8, i=4. -/
theorem decode_field_concatenation :
    (∀ (M : Machine) (f : InstrFunc) (instr : List Nat) (pat : List Char)
        (flds : Fields) (c : Char),
      pattern_match M f instr = .ok (some flds) →
      extract_pattern M f = .ok pat →
      c ∈ pat →
      flds c = some
        ((((pat.zip (bitsOf (intFromBytes M.endian instr) (M.isize * 8))).filter
            (fun cb => cb.1 = c)).map Prod.snd).foldl (fun x y => x * 2 + y) 0))
    ∧ fieldsProj (pattern_match mipsM mipsAddiF [0x21, 0x08, 0x00, 0x04]) ['s', 't', 'i']
        = some [some 8, some 8, some 4] := by
  constructor
  · intro M f instr pat flds c h hp hc
    exact pattern_match_field M f instr flds pat c h hp hc
  · rfl

/-- Claim C2, witness: the concatenation rule instantiated at the scenario
field i of the addi instruction. -/
theorem decode_field_concatenation_witness :
    scenarioF 'i' = some
      (((("001000ssssstttttiiiiiiiiiiiiiiii".data.zip
          (bitsOf (intFromBytes Endian.big [0x21, 0x08, 0x00, 0x04]) (4 * 8))).filter
          (fun cb => cb.1 = 'i')).map Prod.snd).foldl (fun x y => x * 2 + y) 0) :=
  decode_field_concatenation.1 mipsM mipsAddiF [0x21, 0x08, 0x00, 0x04]
    "001000ssssstttttiiiiiiiiiiiiiiii".data scenarioF 'i' rfl rfl (by decide)

/-- Claim C10: a successful decode also stores the literal bits in the field
set, under the keys '0' and '1': key '0' holds 0 and key '1' holds
2^k - 1 where k counts the '1' characters of the template; the field set is
not restricted to the field identifiers. -/
theorem decode_literal_bit_fields :
    ∀ (M : Machine) (instr : List Nat) (f : InstrFunc) (flds : Fields) (pat : List Char),
      decode M instr = .ok (f, flds) →
      extract_pattern M f = .ok pat →
      ('0' ∈ pat → flds '0' = some 0) ∧
      ('1' ∈ pat → flds '1' = some (2 ^ pat.count '1' - 1)) := by
  intro M instr f flds pat hdec hp
  have hpm := decodeGo_ok_pattern M M.catalog instr f flds hdec
  obtain ⟨hlen, pat2, hp2, hloop⟩ := pattern_match_ok_some M f instr flds hpm
  rw [hp] at hp2
  injection hp2 with hp2
  subst hp2
  have hplen : pat.length = (bitsOf (intFromBytes M.endian instr) (M.isize * 8)).length := by
    rw [bitsOf_length]
    exact extract_pattern_ok_length M f pat hp
  have hguard := matchLoop_guard _ emptyFields flds hloop
  constructor
  · intro h0
    rw [pattern_match_field M f instr flds pat '0' hpm hp h0]
    congr 1
    apply foldl_all_zero
    intro b hbmem
    simp only [List.mem_map] at hbmem
    obtain ⟨cb, hcbf, hsnd⟩ := hbmem
    have hcc : cb.1 = '0' := by simpa using List.of_mem_filter hcbf
    have hzip := List.mem_of_mem_filter hcbf
    have hlt : cb.2 < 2 := bitsOf_mem_lt _ _ cb.2 (List.of_mem_zip hzip).2
    have hne : cb.2 ≠ 1 := fun hx => (hguard cb hzip).1 ⟨hcc, hx⟩
    omega
  · intro h1
    rw [pattern_match_field M f instr flds pat '1' hpm hp h1]
    congr 1
    rw [foldl_all_one]
    · rw [List.length_map, filter_zip_length '1' _ _ hplen]
      omega
    · intro b hbmem
      simp only [List.mem_map] at hbmem
      obtain ⟨cb, hcbf, hsnd⟩ := hbmem
      have hcc : cb.1 = '1' := by simpa using List.of_mem_filter hcbf
      have hzip := List.mem_of_mem_filter hcbf
      have hlt : cb.2 < 2 := bitsOf_mem_lt _ _ cb.2 (List.of_mem_zip hzip).2
      have hne : cb.2 ≠ 0 := fun hx => (hguard cb hzip).2 ⟨hcc, hx⟩
      omega

/-- Claim C10, witness: the addi scenario decode stores literal keys '0' and
'1' (the template has one '1' character, so key '1' holds 2^1 - 1). -/
theorem decode_literal_bit_fields_witness :
    scenarioF '0' = some 0
    ∧ scenarioF '1' = some (2 ^ ("001000ssssstttttiiiiiiiiiiiiiiii".data.count '1') - 1) :=
  ⟨(decode_literal_bit_fields mipsM [0x21, 0x08, 0x00, 0x04] mipsAddiF scenarioF
      "001000ssssstttttiiiiiiiiiiiiiiii".data rfl rfl).1 (by decide),
   (decode_literal_bit_fields mipsM [0x21, 0x08, 0x00, 0x04] mipsAddiF scenarioF
      "001000ssssstttttiiiiiiiiiiiiiiii".data rfl rfl).2 (by decide)⟩

/-- Claim C3, counterexample: catalog construction performs no template
validation, so the machine with a 31-character template on a 32-bit width is
built with the malformed entry in its catalog and no error is raised until
decode runs (which then fails with the format-width error). -/
theorem catalog_no_construction_check_counterexample :
    badTemplateM.catalog.map (fun g => g.name) = ["instruction_w"]
    ∧ (extract_pattern badTemplateM badTemplateF).isOk = false
    ∧ decode badTemplateM [0, 0, 0, 0] = .error .formatWidth := ⟨rfl, rfl, rfl⟩

/-- Claim C3 (amended): a bit_template whose length differs from the
instruction width raises the template-width error at decode time, from the
first decode attempt that reaches the entry; catalog construction itself
never checks template lengths. -/
theorem bad_template_error_at_decode :
    ∀ (M : Machine) (instr : List Nat) (f : InstrFunc) (rest : List InstrFunc),
      M.catalog = f :: rest →
      instr.length = M.isize →
      extract_pattern M f = .error .formatWidth →
      decode M instr = .error .formatWidth := by
  intro M instr f rest hcat hlen hpat
  unfold decode
  rw [hcat]
  simp only [decodeGo, pattern_match, hlen, hpat]
  simp

/-- Claim C3, witness: the amended rule applied to the 31-character-template
machine. -/
theorem bad_template_error_at_decode_witness :
    decode badTemplateM [0, 0, 0, 0] = .error .formatWidth :=
  bad_template_error_at_decode badTemplateM [0, 0, 0, 0] badTemplateF [] rfl rfl rfl

/-- Claim C8, counterexample: with an empty catalog (the IsaDefinition base
class declares no instruction_ methods) a wrong-length buffer makes decode
fail with the unknown-instruction error, not the width-mismatch error,
because the length check lives inside the per-entry pattern match. -/
theorem decode_wrong_length_empty_catalog_counterexample :
    emptyM.catalog = []
    ∧ ([0] : List Nat).length ≠ emptyM.isize
    ∧ decode emptyM [0] = .error .unableToDecode
    ∧ ISAErr.unableToDecode ≠ ISAErr.instrWidth := ⟨rfl, by decide, rfl, by decide⟩

/-- Claim C8 (amended): provided the catalog has at least one entry, every
buffer whose length differs from isize makes decode fail with the
width-mismatch error before any entry is matched or field extracted; with an
empty catalog decode fails with the unknown-instruction error instead. -/
theorem decode_wrong_length_width_error :
    ∀ (M : Machine) (instr : List Nat) (f : InstrFunc) (rest : List InstrFunc),
      M.catalog = f :: rest →
      instr.length ≠ M.isize →
      decode M instr = .error .instrWidth := by
  intro M instr f rest hcat hlen
  have hpm : pattern_match M f instr = .error .instrWidth := by
    unfold pattern_match
    rw [if_pos hlen]
  unfold decode
  rw [hcat]
  simp only [decodeGo, hpm]

/-- Claim C8, witness: a 1-byte buffer on the 4-byte-instruction Mips
machine. -/
theorem decode_wrong_length_width_error_witness :
    decode mipsM [0x21] = .error .instrWidth :=
  decode_wrong_length_width_error mipsM [0x21] mipsAddF [mipsAddiF, mipsJF, mipsNopF]
    rfl (by decide)

/-- Claim C4, counterexample: a step that decodes and executes but fails
during disassembly (unknown operand sigil) returns with the action's write
to register X in place, so a failing step is not free of state mutation. -/
theorem step_failure_mutation_counterexample :
    (step badSigilM (zeroState [0])).2 = .error .unknownOperand
    ∧ (step badSigilM (zeroState [0])).1.sregs "X" = 1
    ∧ (zeroState [0]).sregs "X" = 0 := ⟨rfl, rfl, rfl⟩

/-- Claim C4 (amended): a step whose decode (or fetch, which cannot itself
raise) fails performs no state mutation: execute is never reached and the
state returned is exactly the pre-step state.  A step that fails after
execute (for example in disassembly) can leave mutations behind. -/
theorem step_decode_failure_atomic :
    ∀ (M : Machine) (s : MachState) (e : ISAErr),
      decode M (fetch M s) = .error e →
      step M s = (s, .error e) := by
  intro M s e h
  simp only [step, h]

/-- Claim C4, witness: a decode failure (empty catalog) leaves the state
untouched. -/
theorem step_decode_failure_atomic_witness :
    step emptyM (zeroState [0, 0, 0, 0]) = (zeroState [0, 0, 0, 0], .error .unableToDecode) :=
  step_decode_failure_atomic emptyM (zeroState [0, 0, 0, 0]) .unableToDecode rfl

/-- Claim C6: a register-sigil token renders as a dollar sign followed by the
raw field value, an address-sigil token as the hexadecimal of the raw value
shifted left by 2, an immediate-sigil token as the hexadecimal of the raw
value; any other sigil on an operand token fails disassembly with the
unknown-operand error; and the addi template renders the scenario fields as
the string addi $8 $8 0x4. -/
theorem format_asm_sigils :
    (∀ (flds : Fields) (c : Char) (v : Nat), flds c = some v →
      format_token flds ('$' :: [c]) = .ok ("$" ++ toString v))
    ∧ (∀ (flds : Fields) (c : Char) (v : Nat), flds c = some v →
      format_token flds ('@' :: [c]) = .ok (pyHex (v <<< 2)))
    ∧ (∀ (flds : Fields) (c : Char) (v : Nat), flds c = some v →
      format_token flds ('!' :: [c]) = .ok (pyHex v))
    ∧ (∀ (flds : Fields) (c : Char) (rest : List Char),
      c ≠ '$' → c ≠ '@' → c ≠ '!' →
      format_token flds (c :: rest) = .error .unknownOperand)
    ∧ (∀ (flds : Fields) (s : String) (nameTok part : List Char) (parts : List (List Char)),
      splitWs s.data = nameTok :: part :: parts →
      format_token flds part = .error .unknownOperand →
      format_asm flds s = .error .unknownOperand)
    ∧ istring mipsAddiF scenarioF = .ok "addi $8 $8 0x4" := by
  refine ⟨?_, ?_, ?_, ?_, ?_, rfl⟩
  · intro flds c v h
    show (match operand_field flds ('$' :: [c]) with
          | .ok rnum => Except.ok ("$" ++ toString rnum)
          | .error e => Except.error e) = .ok ("$" ++ toString v)
    have e1 : operand_field flds ('$' :: [c]) = .ok v := by
      show (match flds c with
            | some w => Except.ok w
            | none => Except.error ISAErr.fieldMissing) = .ok v
      rw [h]
    rw [e1]
  · intro flds c v h
    show (match operand_field flds ('@' :: [c]) with
          | .ok addr => Except.ok (pyHex (addr <<< 2))
          | .error e => Except.error e) = .ok (pyHex (v <<< 2))
    have e1 : operand_field flds ('@' :: [c]) = .ok v := by
      show (match flds c with
            | some w => Except.ok w
            | none => Except.error ISAErr.fieldMissing) = .ok v
      rw [h]
    rw [e1]
  · intro flds c v h
    show (match operand_field flds ('!' :: [c]) with
          | .ok immed => Except.ok (pyHex immed)
          | .error e => Except.error e) = .ok (pyHex v)
    have e1 : operand_field flds ('!' :: [c]) = .ok v := by
      show (match flds c with
            | some w => Except.ok w
            | none => Except.error ISAErr.fieldMissing) = .ok v
      rw [h]
    rw [e1]
  · intro flds c rest h1 h2 h3
    simp only [format_token]
    rw [if_neg h1, if_neg h2, if_neg h3]
  · intro flds s nameTok part parts hsplit htok
    unfold format_asm
    rw [hsplit]
    simp only [formatTokens, htok]

/-- Claim C6, witness: the sigil rules applied to the scenario fields. -/
theorem format_asm_sigils_witness :
    format_token scenarioF ['$', 't'] = .ok ("$" ++ toString (8 : Nat))
    ∧ format_token scenarioF ['@', 'i'] = .ok (pyHex (4 <<< 2))
    ∧ format_token scenarioF ['!', 'i'] = .ok (pyHex 4)
    ∧ format_token scenarioF ['%', 'd'] = .error .unknownOperand :=
  ⟨format_asm_sigils.1 scenarioF 't' 8 rfl,
   format_asm_sigils.2.1 scenarioF 'i' 4 rfl,
   format_asm_sigils.2.2.1 scenarioF 'i' 4 rfl,
   format_asm_sigils.2.2.2.1 scenarioF '%' ['d'] (by decide) (by decide) (by decide)⟩

/-- Claim C9: running the register declarations and enumerating produces one
triple per register in declaration order, files expanded as indices
0..size-1, with the override name or the dollar-name-index default. -/
theorem registers_enumeration (ds : List RegDecl) (s : MachState) :
    registers (make_reg_list ds) s = enumerate_registers_spec ds s := by
  induction ds with
  | nil => rfl
  | cons d rest ih =>
    cases d with
    | reg n bits =>
      simp only [make_reg_list, registers, enumerate_registers_spec, ih]
    | file n size bits rn =>
      cases rn with
      | none =>
        simp only [make_reg_list, registers, enumerate_registers_spec, ih, default_rnames]
      | some f =>
        simp only [make_reg_list, registers, enumerate_registers_spec, ih]

/-! Support lemmas for the Mips step theorem. -/

theorem setS_sregs_same (s : MachState) (n : String) (v : Int) :
    (setS s n v).sregs n = v := by
  simp [setS]

theorem setS_fregs (s : MachState) (n : String) (v : Int) :
    (setS s n v).fregs = s.fregs := rfl

theorem setF_sregs (s : MachState) (n : String) (i : Nat) (v : Int) :
    (setF s n i v).sregs = s.sregs := rfl

theorem setF_fregs_same (s : MachState) (n : String) (i : Nat) (v : Int) :
    (setF s n i v).fregs n i = v := by
  simp [setF]

theorem decodeGo_ok_mem (M : Machine) (L : List InstrFunc) (instr : List Nat)
    (f : InstrFunc) (flds : Fields) (h : decodeGo M L instr = .ok (f, flds)) : f ∈ L := by
  induction L with
  | nil => exact absurd h (by simp [decodeGo])
  | cons g rest ih =>
    simp only [decodeGo] at h
    split at h
    · exact absurd h (by simp)
    · simp only [Except.ok.injEq, Prod.mk.injEq] at h
      simp [h.1.symm]
    · simp [ih h]

theorem decode_mips_cases (instr : List Nat) (f : InstrFunc) (flds : Fields)
    (h : decode mipsM instr = .ok (f, flds)) :
    (f = mipsAddF ∨ f = mipsAddiF ∨ f = mipsJF ∨ f = mipsNopF)
    ∧ pattern_match mipsM f instr = .ok (some flds) := by
  have hcat : mipsM.catalog = [mipsAddF, mipsAddiF, mipsJF, mipsNopF] := rfl
  unfold decode at h
  rw [hcat] at h
  refine ⟨?_, ?_⟩
  · have := decodeGo_ok_mem mipsM _ instr f flds h
    simpa using this
  · have hcat2 : decodeGo mipsM mipsM.catalog instr = .ok (f, flds) := by
      rw [hcat]
      exact h
    exact decodeGo_ok_pattern mipsM _ instr f flds hcat2

theorem step_of_decode_action (M : Machine) (s s1 : MachState) (f : InstrFunc) (flds : Fields)
    (hdec : decode M (fetch M s) = .ok (f, flds))
    (hact : f.action flds s = (s1, none)) :
    (step M s).1 = (match M.finOpt with
                    | some fin => fin f.name flds s1
                    | none => s1) := by
  simp only [step, hdec, hact]
  cases h2 : istring f flds <;> simp [h2]

theorem mipsFinalize_nonjump (fname : String) (flds : Fields) (s : MachState)
    (h : fname ≠ "instruction_j") :
    mipsFinalize fname flds s = setS (setF s "R" 0 0) "PC" ((setF s "R" 0 0).sregs "PC" + 4) := by
  simp [mipsFinalize, mipsJumps, h]

theorem mipsFinalize_jump (flds : Fields) (s : MachState) :
    mipsFinalize "instruction_j" flds s = setF s "R" 0 0 := by
  simp [mipsFinalize, mipsJumps]

/-- Claim C5: after a step whose decode succeeds, the Mips finalize hook has
forced register R[0] back to 0; for every instruction not in the jump set
the program counter equals its pre-step value plus the 4-byte instruction
width, and for the jump instruction the program counter equals exactly the
value its action assigned (upper bits of PC+4 plus the shifted address
field), with no extra increment. -/
theorem mips_step_finalize (s : MachState) (f : InstrFunc) (flds : Fields)
    (h : decode mipsM (fetch mipsM s) = .ok (f, flds)) :
    (step mipsM s).1.fregs "R" 0 = 0
    ∧ (f.name ≠ "instruction_j" → (step mipsM s).1.sregs "PC" = s.sregs "PC" + 4)
    ∧ (f.name = "instruction_j" →
        ∃ a upper_bits, flds 'a' = some a
          ∧ bit_select (s.sregs "PC" + 4) 31 28 false = .ok upper_bits
          ∧ (step mipsM s).1.sregs "PC" = upper_bits + ((a <<< 2 : Nat) : Int)) := by
  obtain ⟨hf, hpm⟩ := decode_mips_cases _ f flds h
  rcases hf with hf | hf | hf | hf
  · subst hf
    obtain ⟨d, hd, _⟩ := pattern_match_field_lt mipsM mipsAddF _ flds
      "000000ssssstttttdddddxxxxx100000".data 'd' hpm rfl (by decide)
    obtain ⟨sv, hs, _⟩ := pattern_match_field_lt mipsM mipsAddF _ flds
      "000000ssssstttttdddddxxxxx100000".data 's' hpm rfl (by decide)
    obtain ⟨tv, ht, _⟩ := pattern_match_field_lt mipsM mipsAddF _ flds
      "000000ssssstttttdddddxxxxx100000".data 't' hpm rfl (by decide)
    have hact : mipsAddF.action flds s =
        (setF s "R" d (s.fregs "R" sv + s.fregs "R" tv), none) := by
      show (match flds 'd', flds 's', flds 't' with
            | some d, some sv, some tv =>
                (setF s "R" d (s.fregs "R" sv + s.fregs "R" tv), none)
            | _, _, _ => (s, some ISAErr.fieldMissing)) =
          (setF s "R" d (s.fregs "R" sv + s.fregs "R" tv), none)
      rw [hd, hs, ht]
    have h1 : (step mipsM s).1 =
        mipsFinalize mipsAddF.name flds (setF s "R" d (s.fregs "R" sv + s.fregs "R" tv)) :=
      step_of_decode_action mipsM s _ mipsAddF flds h hact
    rw [mipsFinalize_nonjump mipsAddF.name flds _ (by decide)] at h1
    refine ⟨?_, fun _ => ?_, fun hj => absurd hj (by decide)⟩
    · rw [h1, setS_fregs, setF_fregs_same]
    · rw [h1, setS_sregs_same, setF_sregs, setF_sregs]
  · subst hf
    obtain ⟨tv, ht, _⟩ := pattern_match_field_lt mipsM mipsAddiF _ flds
      "001000ssssstttttiiiiiiiiiiiiiiii".data 't' hpm rfl (by decide)
    obtain ⟨sv, hs, _⟩ := pattern_match_field_lt mipsM mipsAddiF _ flds
      "001000ssssstttttiiiiiiiiiiiiiiii".data 's' hpm rfl (by decide)
    obtain ⟨iv, hi, hilt⟩ := pattern_match_field_lt mipsM mipsAddiF _ flds
      "001000ssssstttttiiiiiiiiiiiiiiii".data 'i' hpm rfl (by decide)
    have hcount : ("001000ssssstttttiiiiiiiiiiiiiiii".data.count 'i') = 16 := rfl
    rw [hcount] at hilt
    obtain ⟨r, hse⟩ : ∃ r, sign_extend ((iv : Nat) : Int) 16 = .ok r :=
      ⟨_, (sign_extend_cases 16 (by omega) iv).1 hilt⟩
    have hact : mipsAddiF.action flds s =
        (setF s "R" tv (s.fregs "R" sv + r), none) := by
      show (match flds 't', flds 's', flds 'i' with
            | some t, some s2, some i =>
              (match sign_extend ((i : Nat) : Int) 16 with
               | .error e => (s, some e)
               | .ok v => (setF s "R" t (s.fregs "R" s2 + v), none))
            | _, _, _ => (s, some ISAErr.fieldMissing)) =
          (setF s "R" tv (s.fregs "R" sv + r), none)
      rw [ht, hs, hi]
      show (match sign_extend ((iv : Nat) : Int) 16 with
            | .error e => (s, some e)
            | .ok v => (setF s "R" tv (s.fregs "R" sv + v), none)) =
          (setF s "R" tv (s.fregs "R" sv + r), none)
      rw [hse]
    have h1 : (step mipsM s).1 =
        mipsFinalize mipsAddiF.name flds (setF s "R" tv (s.fregs "R" sv + r)) :=
      step_of_decode_action mipsM s _ mipsAddiF flds h hact
    rw [mipsFinalize_nonjump mipsAddiF.name flds _ (by decide)] at h1
    refine ⟨?_, fun _ => ?_, fun hj => absurd hj (by decide)⟩
    · rw [h1, setS_fregs, setF_fregs_same]
    · rw [h1, setS_sregs_same, setF_sregs, setF_sregs]
  · subst hf
    obtain ⟨a, ha, _⟩ := pattern_match_field_lt mipsM mipsJF _ flds
      "000010aaaaaaaaaaaaaaaaaaaaaaaaaa".data 'a' hpm rfl (by decide)
    have hact : mipsJF.action flds s =
        (setS s "PC"
          (intShiftRight ((s.sregs "PC" + 4).land ((mask 32).land (Int.lnot (mask 28)))) 0
            + ((a <<< 2 : Nat) : Int)), none) := by
      show (match flds 'a' with
            | none => (s, some ISAErr.fieldMissing)
            | some a =>
              (setS s "PC"
                (intShiftRight ((s.sregs "PC" + 4).land ((mask 32).land (Int.lnot (mask 28)))) 0
                  + ((a <<< 2 : Nat) : Int)), none)) =
          (setS s "PC"
            (intShiftRight ((s.sregs "PC" + 4).land ((mask 32).land (Int.lnot (mask 28)))) 0
              + ((a <<< 2 : Nat) : Int)), none)
      rw [ha]
    have h1 : (step mipsM s).1 =
        mipsFinalize mipsJF.name flds
          (setS s "PC"
            (intShiftRight ((s.sregs "PC" + 4).land ((mask 32).land (Int.lnot (mask 28)))) 0
              + ((a <<< 2 : Nat) : Int))) :=
      step_of_decode_action mipsM s _ mipsJF flds h hact
    rw [show mipsJF.name = "instruction_j" from rfl, mipsFinalize_jump] at h1
    refine ⟨?_, fun hne => absurd rfl hne, fun _ => ?_⟩
    · rw [h1, setF_fregs_same]
    · refine ⟨a, _, ha, rfl, ?_⟩
      rw [h1, setF_sregs, setS_sregs_same]
      rfl
  · subst hf
    have hact : mipsNopF.action flds s = (s, none) := rfl
    have h1 : (step mipsM s).1 = mipsFinalize mipsNopF.name flds s :=
      step_of_decode_action mipsM s _ mipsNopF flds h hact
    rw [mipsFinalize_nonjump mipsNopF.name flds _ (by decide)] at h1
    refine ⟨?_, fun _ => ?_, fun hj => absurd hj (by decide)⟩
    · rw [h1, setS_fregs, setF_fregs_same]
    · rw [h1, setS_sregs_same, setF_sregs]

/-- Claim C5, witness: stepping the Mips machine on the addi instruction at
PC 0 advances the program counter by 4 and keeps register 0 at zero. -/
theorem mips_step_finalize_witness :
    (step mipsM (zeroState [0x21, 0x08, 0x00, 0x04])).1.sregs "PC"
      = (zeroState [0x21, 0x08, 0x00, 0x04]).sregs "PC" + 4
    ∧ (step mipsM (zeroState [0x21, 0x08, 0x00, 0x04])).1.fregs "R" 0 = 0 :=
  ⟨(mips_step_finalize (zeroState [0x21, 0x08, 0x00, 0x04]) mipsAddiF scenarioF rfl).2.1
      (by decide),
   (mips_step_finalize (zeroState [0x21, 0x08, 0x00, 0x04]) mipsAddiF scenarioF rfl).1⟩
